import Mathlib

/-!
Shallow embedding of the Bitcoin-style transaction codec
(CompactSize varints, OutPoint, Script, TransactionInput,
BitcoinTransaction) and proofs about its encode and decode functions.
Bytes are modelled as natural numbers below 256, byte buffers as lists,
and fallible decoders return `Except BitcoinError`.
-/

namespace Btc

/-- Little-endian byte expansion: `toLE n v` is the list of the `n`
low-order base-256 digits of `v`, least significant first.  This models
the Rust calls `(v as uN).to_le_bytes()`. -/
def toLE : Nat → Nat → List Nat
  | 0, _ => []
  | n + 1, v => v % 256 :: toLE n (v / 256)

/-- Little-endian reassembly of a byte list, modelling the Rust calls
`uN::from_le_bytes`. -/
def fromLE : List Nat → Nat
  | [] => 0
  | b :: bs => b + 256 * fromLE bs

theorem toLE_length (n v : Nat) : (toLE n v).length = n := by
  induction n generalizing v with
  | zero => rfl
  | succ n ih => simp [toLE, ih]

theorem fromLE_toLE (n v : Nat) : fromLE (toLE n v) = v % 256 ^ n := by
  induction n generalizing v with
  | zero => simp [toLE, fromLE, Nat.mod_one]
  | succ n ih =>
    simp only [toLE, fromLE, ih]
    rw [pow_succ', Nat.mod_mul]

theorem take_toLE_append (n v : Nat) (rest : List Nat) :
    ((toLE n v ++ rest).take n) = toLE n v :=
  List.take_left' (toLE_length n v)

theorem fromLE_take_toLE (n v : Nat) (rest : List Nat) :
    fromLE ((toLE n v ++ rest).take n) = v % 256 ^ n := by
  rw [take_toLE_append, fromLE_toLE]

/-- The two terminal error kinds of the codec, mirroring
`enum BitcoinError` in the source. -/
inductive BitcoinError where
  | InsufficientBytes : BitcoinError
  | InvalidFormat : BitcoinError
deriving DecidableEq

deriving instance DecidableEq for Except

/-- A CompactSize varint wrapping a u64 value, modelled as a natural
number (well-formed values are below `2 ^ 64`). -/
structure CompactSize where
  value : Nat
deriving DecidableEq

/-- Embeds `CompactSize::to_bytes`: canonical smallest-class encoding
with marker bytes 0xFD, 0xFE, 0xFF; the casts `v as u16` and so on are
the corresponding residues. -/
def CompactSize.toBytes (c : CompactSize) : List Nat :=
  let v := c.value
  if v ≤ 0xFC then [v]
  else if v ≤ 0xFFFF then 0xFD :: toLE 2 (v % 2 ^ 16)
  else if v ≤ 0xFFFFFFFF then 0xFE :: toLE 4 (v % 2 ^ 32)
  else 0xFF :: toLE 8 (v % 2 ^ 64)

/-- Embeds `CompactSize::from_bytes`: match on the first byte; the final
catch-all arm of the Rust `match` (unreachable for u8 input) maps to the
final `else`. -/
def CompactSize.fromBytes (bytes : List Nat) :
    Except BitcoinError (CompactSize × Nat) :=
  match bytes with
  | [] => .error .InsufficientBytes
  | b :: _ =>
    if b ≤ 0xFC then .ok (⟨b⟩, 1)
    else if b = 0xFD then
      if bytes.length < 3 then .error .InsufficientBytes
      else .ok (⟨fromLE ((bytes.drop 1).take 2)⟩, 3)
    else if b = 0xFE then
      if bytes.length < 5 then .error .InsufficientBytes
      else .ok (⟨fromLE ((bytes.drop 1).take 4)⟩, 5)
    else if b = 0xFF then
      if bytes.length < 9 then .error .InsufficientBytes
      else .ok (⟨fromLE ((bytes.drop 1).take 8)⟩, 9)
    else .error .InvalidFormat

theorem CompactSize.toBytes_length_varint (v : Nat) :
    (CompactSize.mk v).toBytes.length =
      if v ≤ 0xFC then 1 else if v ≤ 0xFFFF then 3
      else if v ≤ 0xFFFFFFFF then 5 else 9 := by
  unfold CompactSize.toBytes
  by_cases h1 : v ≤ 0xFC
  · simp [h1]
  · by_cases h2 : v ≤ 0xFFFF
    · simp [h1, h2, toLE_length]
    · by_cases h3 : v ≤ 0xFFFFFFFF
      · simp [h1, h2, h3, toLE_length]
      · simp [h1, h2, h3, toLE_length]

/-- Decoding a canonical varint encoding followed by arbitrary trailing
bytes recovers the value and consumes exactly the encoding's length. -/
theorem CompactSize.roundtrip_varint (v : Nat) (hv : v < 2 ^ 64)
    (extra : List Nat) :
    CompactSize.fromBytes ((CompactSize.mk v).toBytes ++ extra) =
      .ok (⟨v⟩, (CompactSize.mk v).toBytes.length) := by
  unfold CompactSize.toBytes
  by_cases h1 : v ≤ 0xFC
  · simp [h1, CompactSize.fromBytes]
  · by_cases h2 : v ≤ 0xFFFF
    · simp only [h1, h2, if_true, if_false, List.cons_append]
      simp [CompactSize.fromBytes, toLE_length, fromLE_take_toLE]
      rw [if_neg (by omega), fromLE_toLE]
      have h256 : (256 : Nat) ^ 2 = 65536 := by norm_num
      rw [h256]
      simp
      omega
    · by_cases h3 : v ≤ 0xFFFFFFFF
      · simp only [h1, h2, h3, if_true, if_false, List.cons_append]
        simp [CompactSize.fromBytes, toLE_length, fromLE_take_toLE]
        rw [if_neg (by omega), fromLE_toLE]
        have h256 : (256 : Nat) ^ 4 = 4294967296 := by norm_num
        rw [h256]
        simp
        omega
      · simp only [h1, h2, h3, if_true, if_false, List.cons_append]
        simp [CompactSize.fromBytes, toLE_length, fromLE_take_toLE]
        rw [if_neg (by omega), fromLE_toLE]
        have h256 : (256 : Nat) ^ 8 = 18446744073709551616 := by norm_num
        rw [h256]
        simp
        omega

/-- Decoding any strict prefix of a canonical varint encoding (with
arbitrary bytes beyond the truncation point removed as well) yields the
insufficient-input error. -/
theorem CompactSize.trunc_varint (v k : Nat) (extra : List Nat)
    (hk : k < (CompactSize.mk v).toBytes.length) :
    CompactSize.fromBytes (((CompactSize.mk v).toBytes ++ extra).take k) =
      .error .InsufficientBytes := by
  unfold CompactSize.toBytes at hk ⊢
  by_cases h1 : v ≤ 0xFC
  · simp only [h1, if_true, List.length_singleton] at hk
    have hk0 : k = 0 := by omega
    subst hk0
    simp [CompactSize.fromBytes]
  · by_cases h2 : v ≤ 0xFFFF
    · simp only [h1, h2, if_true, if_false] at hk ⊢
      simp only [List.length_cons, toLE_length] at hk
      match k with
      | 0 => simp [CompactSize.fromBytes]
      | k + 1 =>
        simp only [List.cons_append, List.take_succ_cons]
        simp [CompactSize.fromBytes, List.length_take, toLE_length]
        omega
    · by_cases h3 : v ≤ 0xFFFFFFFF
      · simp only [h1, h2, h3, if_true, if_false] at hk ⊢
        simp only [List.length_cons, toLE_length] at hk
        match k with
        | 0 => simp [CompactSize.fromBytes]
        | k + 1 =>
          simp only [List.cons_append, List.take_succ_cons]
          simp [CompactSize.fromBytes, List.length_take, toLE_length]
          omega
      · simp only [h1, h2, h3, if_true, if_false] at hk ⊢
        simp only [List.length_cons, toLE_length] at hk
        match k with
        | 0 => simp [CompactSize.fromBytes]
        | k + 1 =>
          simp only [List.cons_append, List.take_succ_cons]
          simp [CompactSize.fromBytes, List.length_take, toLE_length]
          omega

/-- A transaction identifier, mirroring `struct Txid(pub [u8; 32])`; the
fixed length 32 is carried as the well-formedness predicate `Txid.WF`. -/
structure Txid where
  data : List Nat
deriving DecidableEq

/-- Well-formed txids hold exactly 32 bytes, as the Rust array type
`[u8; 32]` guarantees. -/
def Txid.WF (t : Txid) : Prop := t.data.length = 32

/-- Mirrors `struct OutPoint \x7b txid, vout \x7d` with `vout : u32`. -/
structure OutPoint where
  txid : Txid
  vout : Nat
deriving DecidableEq

/-- Rust-representable outpoints: 32-byte txid and a u32 vout. -/
def OutPoint.WF (o : OutPoint) : Prop := o.txid.WF ∧ o.vout < 2 ^ 32

/-- Embeds `OutPoint::to_bytes`: the 32 txid bytes then the vout in
4-byte little-endian form. -/
def OutPoint.toBytes (o : OutPoint) : List Nat :=
  o.txid.data ++ toLE 4 o.vout

/-- Embeds `OutPoint::from_bytes`: require 36 bytes, split at byte 32. -/
def OutPoint.fromBytes (bytes : List Nat) :
    Except BitcoinError (OutPoint × Nat) :=
  if bytes.length < 36 then .error .InsufficientBytes
  else .ok (⟨⟨bytes.take 32⟩, fromLE ((bytes.drop 32).take 4)⟩, 36)

/-- Mirrors `struct Script \x7b bytes: Vec<u8> \x7d`. -/
structure Script where
  bytes : List Nat
deriving DecidableEq

/-- Rust-representable scripts: the vector length fits in usize/u64. -/
def Script.WF (s : Script) : Prop := s.bytes.length < 2 ^ 64

/-- Embeds `Script::to_bytes`: varint length then the raw bytes. -/
def Script.toBytes (s : Script) : List Nat :=
  (CompactSize.mk s.bytes.length).toBytes ++ s.bytes

/-- Embeds `Script::from_bytes` in exact arithmetic: decode the length
varint, require `used + len` bytes, slice the payload out verbatim.
The usize overflow the Rust source can hit in `used + len` is modelled
separately by `Script.fromBytesUsize`. -/
def Script.fromBytes (bytes : List Nat) :
    Except BitcoinError (Script × Nat) :=
  match CompactSize.fromBytes bytes with
  | .error e => .error e
  | .ok (cs, used) =>
    let len := cs.value
    if bytes.length < used + len then .error .InsufficientBytes
    else .ok (⟨(bytes.drop used).take len⟩, used + len)

/-- Embeds `Script::from_bytes` with 64-bit usize semantics as compiled
in release mode: the sum `used + len` wraps modulo `2 ^ 64` before the
length comparison, and the subsequent slice `bytes[used..stop]` panics
(modelled as `none`) when the wrapped end index is below `used`. -/
def Script.fromBytesUsize (bytes : List Nat) :
    Option (Except BitcoinError (Script × Nat)) :=
  match CompactSize.fromBytes bytes with
  | .error e => some (.error e)
  | .ok (cs, used) =>
    let len := cs.value
    let stop := (used + len) % 2 ^ 64
    if bytes.length < stop then some (.error .InsufficientBytes)
    else if stop < used then none
    else some (.ok (⟨(bytes.drop used).take (stop - used)⟩, stop))

/-- Mirrors `struct TransactionInput` with `sequence : u32`. -/
structure TransactionInput where
  previous_output : OutPoint
  script_sig : Script
  sequence : Nat
deriving DecidableEq

/-- Rust-representable transaction inputs. -/
def TransactionInput.WF (t : TransactionInput) : Prop :=
  t.previous_output.WF ∧ t.script_sig.WF ∧ t.sequence < 2 ^ 32

/-- Embeds `TransactionInput::to_bytes`: outpoint, script, then the
sequence number in 4-byte little-endian form. -/
def TransactionInput.toBytes (t : TransactionInput) : List Nat :=
  t.previous_output.toBytes ++ t.script_sig.toBytes ++ toLE 4 t.sequence

/-- Embeds `TransactionInput::from_bytes`: decode the outpoint, decode
the script from the re-sliced remainder, require 4 more bytes for the
sequence, and sum the consumed counts. -/
def TransactionInput.fromBytes (bytes : List Nat) :
    Except BitcoinError (TransactionInput × Nat) :=
  match OutPoint.fromBytes bytes with
  | .error e => .error e
  | .ok (outpoint, used1) =>
    match Script.fromBytes (bytes.drop used1) with
    | .error e => .error e
    | .ok (script, used2) =>
      if bytes.length < used1 + used2 + 4 then .error .InsufficientBytes
      else
        .ok (⟨outpoint, script,
              fromLE ((bytes.drop (used1 + used2)).take 4)⟩,
             used1 + used2 + 4)

/-- Mirrors `struct BitcoinTransaction` with u32 version and lock time. -/
structure BitcoinTransaction where
  version : Nat
  inputs : List TransactionInput
  lock_time : Nat
deriving DecidableEq

/-- Rust-representable transactions: u32 fields, input count in usize,
and all inputs themselves representable. -/
def BitcoinTransaction.WF (t : BitcoinTransaction) : Prop :=
  t.version < 2 ^ 32 ∧ t.lock_time < 2 ^ 32 ∧
    t.inputs.length < 2 ^ 64 ∧ ∀ i ∈ t.inputs, i.WF

/-- Embeds `BitcoinTransaction::to_bytes`: version, varint input count,
each input in order, then the lock time. -/
def BitcoinTransaction.toBytes (t : BitcoinTransaction) : List Nat :=
  toLE 4 t.version ++ (CompactSize.mk t.inputs.length).toBytes ++
    (t.inputs.map TransactionInput.toBytes).flatten ++ toLE 4 t.lock_time

/-- Embeds the decode loop of `BitcoinTransaction::from_bytes`: decode
`count` inputs from `bytes` starting at `offset`, advancing the offset
by each input's consumed length and propagating the first failure. -/
def readInputs : Nat → List Nat → Nat →
    Except BitcoinError (List TransactionInput × Nat)
  | 0, _, offset => .ok ([], offset)
  | count + 1, bytes, offset =>
    match TransactionInput.fromBytes (bytes.drop offset) with
    | .error e => .error e
    | .ok (input, used) =>
      match readInputs count bytes (offset + used) with
      | .error e => .error e
      | .ok (rest, finalOffset) => .ok (input :: rest, finalOffset)

/-- Embeds `BitcoinTransaction::from_bytes`: require 4 bytes for the
version, decode the varint input count, run the decode loop, then
require 4 more bytes for the lock time. -/
def BitcoinTransaction.fromBytes (bytes : List Nat) :
    Except BitcoinError (BitcoinTransaction × Nat) :=
  if bytes.length < 4 then .error .InsufficientBytes
  else
    match CompactSize.fromBytes (bytes.drop 4) with
    | .error e => .error e
    | .ok (cs, used1) =>
      match readInputs cs.value bytes (4 + used1) with
      | .error e => .error e
      | .ok (inputs, offset) =>
        if bytes.length < offset + 4 then .error .InsufficientBytes
        else
          .ok (⟨fromLE (bytes.take 4), inputs,
                fromLE ((bytes.drop offset).take 4)⟩,
               offset + 4)

theorem OutPoint.toBytes_length_outpoint (o : OutPoint) (ho : o.WF) :
    o.toBytes.length = 36 := by
  obtain ⟨ht, _⟩ := ho
  have ht' : o.txid.data.length = 32 := ht
  simp [OutPoint.toBytes, toLE_length, ht']

theorem OutPoint.fromBytes_short (l : List Nat) (h : l.length < 36) :
    OutPoint.fromBytes l = .error .InsufficientBytes := by
  unfold OutPoint.fromBytes
  rw [if_pos h]

/-- Decoding an outpoint encoding followed by arbitrary trailing bytes
recovers the outpoint and consumes exactly 36 bytes. -/
theorem OutPoint.roundtrip_outpoint (o : OutPoint) (ho : o.WF)
    (extra : List Nat) :
    OutPoint.fromBytes (o.toBytes ++ extra) = .ok (o, 36) := by
  obtain ⟨ht, hv⟩ := ho
  have ht' : o.txid.data.length = 32 := ht
  unfold OutPoint.toBytes
  rw [List.append_assoc]
  unfold OutPoint.fromBytes
  rw [if_neg (by simp [ht', toLE_length]; omega)]
  rw [List.take_left' ht', List.drop_left' ht', fromLE_take_toLE]
  have hp : (256 : Nat) ^ 4 = 2 ^ 32 := by norm_num
  rw [hp, Nat.mod_eq_of_lt hv]

theorem Script.toBytes_length_script (s : Script) :
    s.toBytes.length =
      (CompactSize.mk s.bytes.length).toBytes.length + s.bytes.length := by
  simp [Script.toBytes]

/-- Decoding a script encoding followed by arbitrary trailing bytes
recovers the script and consumes exactly the encoding's length. -/
theorem Script.roundtrip_script (s : Script) (hs : s.WF)
    (extra : List Nat) :
    Script.fromBytes (s.toBytes ++ extra) = .ok (s, s.toBytes.length) := by
  have hL : s.bytes.length < 2 ^ 64 := hs
  unfold Script.toBytes
  rw [List.append_assoc]
  unfold Script.fromBytes
  rw [CompactSize.roundtrip_varint s.bytes.length hL (s.bytes ++ extra)]
  simp only []
  rw [if_neg (by simp)]
  rw [List.drop_left' rfl, List.take_left' rfl]
  simp

/-- Decoding any strict prefix of a script encoding yields the
insufficient-input error. -/
theorem Script.trunc_script (s : Script) (hs : s.WF) (k : Nat)
    (extra : List Nat) (hk : k < s.toBytes.length) :
    Script.fromBytes ((s.toBytes ++ extra).take k) =
      .error .InsufficientBytes := by
  have hL : s.bytes.length < 2 ^ 64 := hs
  rw [Script.toBytes_length_script] at hk
  unfold Script.toBytes
  rw [List.append_assoc]
  by_cases hcase : k < (CompactSize.mk s.bytes.length).toBytes.length
  · unfold Script.fromBytes
    rw [CompactSize.trunc_varint s.bytes.length k (s.bytes ++ extra) hcase]
  · push_neg at hcase
    rw [List.take_append_eq_append_take,
        List.take_of_length_le hcase]
    unfold Script.fromBytes
    rw [CompactSize.roundtrip_varint s.bytes.length hL]
    simp only []
    rw [if_pos]
    simp [List.length_take]
    omega

theorem TransactionInput.toBytes_length_input (t : TransactionInput) (ht : t.WF) :
    t.toBytes.length = 36 + t.script_sig.toBytes.length + 4 := by
  have h36 := OutPoint.toBytes_length_outpoint t.previous_output ht.1
  simp [TransactionInput.toBytes, toLE_length, h36]
  omega

/-- Decoding a transaction-input encoding followed by arbitrary trailing
bytes recovers the input and consumes exactly the encoding's length. -/
theorem TransactionInput.roundtrip_input (t : TransactionInput)
    (ht : t.WF) (extra : List Nat) :
    TransactionInput.fromBytes (t.toBytes ++ extra) =
      .ok (t, t.toBytes.length) := by
  obtain ⟨hop, hsc, hseq⟩ := ht
  have hoplen := OutPoint.toBytes_length_outpoint t.previous_output hop
  unfold TransactionInput.toBytes
  rw [List.append_assoc, List.append_assoc]
  unfold TransactionInput.fromBytes
  rw [OutPoint.roundtrip_outpoint t.previous_output hop]
  simp only []
  rw [List.drop_left' hoplen]
  rw [Script.roundtrip_script t.script_sig hsc]
  simp only []
  rw [if_neg (by simp [hoplen, toLE_length]; omega)]
  rw [show 36 + t.script_sig.toBytes.length =
        (t.previous_output.toBytes ++ t.script_sig.toBytes).length by
      simp [hoplen]]
  rw [← List.append_assoc, List.drop_left, fromLE_take_toLE]
  have hp : (256 : Nat) ^ 4 = 2 ^ 32 := by norm_num
  rw [hp, Nat.mod_eq_of_lt hseq]
  simp [hoplen, toLE_length]
  omega

/-- Decoding any strict prefix of a transaction-input encoding yields
the insufficient-input error. -/
theorem TransactionInput.trunc_input (t : TransactionInput)
    (ht : t.WF) (k : Nat) (extra : List Nat) (hk : k < t.toBytes.length) :
    TransactionInput.fromBytes ((t.toBytes ++ extra).take k) =
      .error .InsufficientBytes := by
  obtain ⟨hop, hsc, hseq⟩ := ht
  have hoplen := OutPoint.toBytes_length_outpoint t.previous_output hop
  rw [TransactionInput.toBytes_length_input t ⟨hop, hsc, hseq⟩] at hk
  unfold TransactionInput.toBytes
  rw [List.append_assoc, List.append_assoc]
  by_cases hk1 : k < 36
  · unfold TransactionInput.fromBytes
    rw [OutPoint.fromBytes_short _ (by simp [List.length_take]; omega)]
  · push_neg at hk1
    rw [List.take_append_eq_append_take,
        List.take_of_length_le (by omega : t.previous_output.toBytes.length ≤ k),
        hoplen]
    by_cases hk2 : k - 36 < t.script_sig.toBytes.length
    · unfold TransactionInput.fromBytes
      rw [OutPoint.roundtrip_outpoint t.previous_output hop]
      simp only []
      rw [List.drop_left' hoplen]
      rw [Script.trunc_script t.script_sig hsc (k - 36) _ hk2]
    · push_neg at hk2
      rw [List.take_append_eq_append_take,
          List.take_of_length_le (by omega : t.script_sig.toBytes.length ≤ k - 36)]
      unfold TransactionInput.fromBytes
      rw [OutPoint.roundtrip_outpoint t.previous_output hop]
      simp only []
      rw [List.drop_left' hoplen]
      rw [Script.roundtrip_script t.script_sig hsc]
      simp only []
      rw [if_pos (by simp [hoplen, List.length_take, toLE_length]; omega)]

/-- The decode loop consumes exactly the concatenated encodings of a
well-formed input list placed after any prefix, returning the inputs and
the final offset. -/
theorem readInputs_append (inps : List TransactionInput)
    (hwf : ∀ i ∈ inps, i.WF) (pre tail : List Nat) :
    readInputs inps.length
        (pre ++ (inps.map TransactionInput.toBytes).flatten ++ tail)
        pre.length =
      .ok (inps,
           pre.length + ((inps.map TransactionInput.toBytes).flatten).length) := by
  revert hwf
  induction inps generalizing pre with
  | nil =>
    intro hwf
    simp [readInputs]
  | cons i rest ih =>
    intro hwf
    simp only [List.map_cons, List.flatten_cons, List.length_cons]
    have hdrop : (pre ++ (TransactionInput.toBytes i ++
          (rest.map TransactionInput.toBytes).flatten) ++ tail).drop pre.length =
        TransactionInput.toBytes i ++
          ((rest.map TransactionInput.toBytes).flatten ++ tail) := by
      rw [List.append_assoc, List.drop_left, List.append_assoc]
    rw [readInputs, hdrop,
        TransactionInput.roundtrip_input i (hwf i (by simp))]
    simp only []
    have hbytes : pre ++ (TransactionInput.toBytes i ++
          (rest.map TransactionInput.toBytes).flatten) ++ tail =
        (pre ++ TransactionInput.toBytes i) ++
          (rest.map TransactionInput.toBytes).flatten ++ tail := by
      simp [List.append_assoc]
    have hoff : pre.length + (TransactionInput.toBytes i).length =
        (pre ++ TransactionInput.toBytes i).length := by
      simp
    rw [hbytes, hoff,
        ih (pre ++ TransactionInput.toBytes i) (fun j hj => hwf j (by simp [hj]))]
    simp only []
    simp [List.length_append]
    omega

/-- A decode loop over a buffer truncated strictly inside the inputs
region fails with the insufficient-input error. -/
theorem readInputs_take_flatten (inps : List TransactionInput)
    (hwf : ∀ i ∈ inps, i.WF) (pre : List Nat) (k : Nat)
    (hk : k < ((inps.map TransactionInput.toBytes).flatten).length) :
    readInputs inps.length
        (pre ++ ((inps.map TransactionInput.toBytes).flatten).take k)
        pre.length =
      .error .InsufficientBytes := by
  revert hwf hk
  induction inps generalizing pre k with
  | nil =>
    intro hwf hk
    simp at hk
  | cons i rest ih =>
    intro hwf hk
    simp only [List.map_cons, List.flatten_cons, List.length_cons,
      List.length_append] at hk ⊢
    by_cases hk1 : k < (TransactionInput.toBytes i).length
    · have hdrop : (pre ++ (TransactionInput.toBytes i ++
            (rest.map TransactionInput.toBytes).flatten).take k).drop pre.length =
          (TransactionInput.toBytes i ++
            (rest.map TransactionInput.toBytes).flatten).take k :=
        List.drop_left pre _
      rw [readInputs, hdrop,
          TransactionInput.trunc_input i (hwf i (by simp)) k _ hk1]
    · push_neg at hk1
      rw [List.take_append_eq_append_take, List.take_of_length_le hk1]
      have hdrop : (pre ++ (TransactionInput.toBytes i ++
            ((rest.map TransactionInput.toBytes).flatten).take
              (k - (TransactionInput.toBytes i).length))).drop pre.length =
          TransactionInput.toBytes i ++
            ((rest.map TransactionInput.toBytes).flatten).take
              (k - (TransactionInput.toBytes i).length) :=
        List.drop_left pre _
      rw [← List.append_assoc] at hdrop
      rw [readInputs, ← List.append_assoc, hdrop,
          TransactionInput.roundtrip_input i (hwf i (by simp))]
      simp only []
      have hbytes : pre ++ TransactionInput.toBytes i ++
            ((rest.map TransactionInput.toBytes).flatten).take
              (k - (TransactionInput.toBytes i).length) =
          (pre ++ TransactionInput.toBytes i) ++
            ((rest.map TransactionInput.toBytes).flatten).take
              (k - (TransactionInput.toBytes i).length) := by
        simp [List.append_assoc]
      have hoff : pre.length + (TransactionInput.toBytes i).length =
          (pre ++ TransactionInput.toBytes i).length := by
        simp
      rw [hbytes, hoff,
          ih (pre ++ TransactionInput.toBytes i)
            (k - (TransactionInput.toBytes i).length)
            (fun j hj => hwf j (by simp [hj])) (by omega)]

/-- The decode loop returns exactly as many inputs as the requested
count. -/
theorem readInputs_length (count : Nat) (bytes : List Nat) (offset : Nat)
    (l : List TransactionInput) (finalOffset : Nat)
    (h : readInputs count bytes offset = .ok (l, finalOffset)) :
    l.length = count := by
  induction count generalizing offset l with
  | zero =>
    rw [readInputs] at h
    cases h
    rfl
  | succ n ih =>
    rw [readInputs] at h
    cases hti : TransactionInput.fromBytes (bytes.drop offset) with
    | error e => rw [hti] at h; cases h
    | ok p =>
      obtain ⟨inp, used⟩ := p
      rw [hti] at h
      simp only [] at h
      cases hrec : readInputs n bytes (offset + used) with
      | error e => rw [hrec] at h; cases h
      | ok q =>
        obtain ⟨rest, fin⟩ := q
        rw [hrec] at h
        simp only [] at h
        cases h
        simp [ih _ _ hrec]

/-- Every error the decode loop reports is an error some input decode
produced on the corresponding suffix of the buffer. -/
theorem readInputs_error_src (count : Nat) (bytes : List Nat) (offset : Nat)
    (e : BitcoinError) (h : readInputs count bytes offset = .error e) :
    ∃ off2, TransactionInput.fromBytes (bytes.drop off2) = .error e := by
  induction count generalizing offset with
  | zero => rw [readInputs] at h; cases h
  | succ n ih =>
    rw [readInputs] at h
    cases hti : TransactionInput.fromBytes (bytes.drop offset) with
    | error e2 =>
      rw [hti] at h
      simp only [] at h
      cases h
      exact ⟨offset, hti⟩
    | ok p =>
      obtain ⟨inp, used⟩ := p
      rw [hti] at h
      simp only [] at h
      cases hrec : readInputs n bytes (offset + used) with
      | error e2 =>
        rw [hrec] at h
        simp only [] at h
        cases h
        exact ih _ hrec
      | ok q =>
        obtain ⟨rest, fin⟩ := q
        rw [hrec] at h
        simp only [] at h
        cases h

theorem BitcoinTransaction.toBytes_length_tx (t : BitcoinTransaction) :
    t.toBytes.length =
      4 + (CompactSize.mk t.inputs.length).toBytes.length +
        ((t.inputs.map TransactionInput.toBytes).flatten).length + 4 := by
  simp [BitcoinTransaction.toBytes, toLE_length]
  omega

/-- Decoding a transaction encoding followed by arbitrary trailing bytes
recovers the transaction and consumes exactly the encoding's length. -/
theorem BitcoinTransaction.roundtrip_tx (t : BitcoinTransaction)
    (htx : t.WF) (extra : List Nat) :
    BitcoinTransaction.fromBytes (t.toBytes ++ extra) =
      .ok (t, t.toBytes.length) := by
  obtain ⟨hver, hlt, hcnt, hinps⟩ := htx
  have h4 : (toLE 4 t.version).length = 4 := toLE_length 4 _
  have hcs : CompactSize.fromBytes ((t.toBytes ++ extra).drop 4) =
      .ok (⟨t.inputs.length⟩,
           (CompactSize.mk t.inputs.length).toBytes.length) := by
    have hd4 : (t.toBytes ++ extra).drop 4 =
        (CompactSize.mk t.inputs.length).toBytes ++
          ((t.inputs.map TransactionInput.toBytes).flatten ++
            (toLE 4 t.lock_time ++ extra)) := by
      unfold BitcoinTransaction.toBytes
      rw [List.append_assoc, List.append_assoc, List.append_assoc,
          List.drop_left' h4]
    rw [hd4]
    exact CompactSize.roundtrip_varint t.inputs.length hcnt _
  have hri : readInputs t.inputs.length (t.toBytes ++ extra)
      (4 + (CompactSize.mk t.inputs.length).toBytes.length) =
      .ok (t.inputs,
           4 + (CompactSize.mk t.inputs.length).toBytes.length +
             ((t.inputs.map TransactionInput.toBytes).flatten).length) := by
    have := readInputs_append t.inputs hinps
        (toLE 4 t.version ++ (CompactSize.mk t.inputs.length).toBytes)
        (toLE 4 t.lock_time ++ extra)
    rw [show toLE 4 t.version ++ (CompactSize.mk t.inputs.length).toBytes ++
          (t.inputs.map TransactionInput.toBytes).flatten ++
          (toLE 4 t.lock_time ++ extra) = t.toBytes ++ extra by
        unfold BitcoinTransaction.toBytes; simp [List.append_assoc]] at this
    rw [show (toLE 4 t.version ++
          (CompactSize.mk t.inputs.length).toBytes).length =
          4 + (CompactSize.mk t.inputs.length).toBytes.length by
        simp [h4]] at this
    exact this
  have hdlt : (t.toBytes ++ extra).drop
      (4 + (CompactSize.mk t.inputs.length).toBytes.length +
        ((t.inputs.map TransactionInput.toBytes).flatten).length) =
      toLE 4 t.lock_time ++ extra := by
    unfold BitcoinTransaction.toBytes
    rw [List.append_assoc, List.append_assoc,
        ← List.append_assoc (toLE 4 t.version ++
          (CompactSize.mk t.inputs.length).toBytes)]
    rw [List.drop_left' (by simp [h4]; omega)]
  have hv4 : (t.toBytes ++ extra).take 4 = toLE 4 t.version := by
    unfold BitcoinTransaction.toBytes
    rw [List.append_assoc, List.append_assoc, List.append_assoc,
        List.take_left' h4]
  unfold BitcoinTransaction.fromBytes
  rw [if_neg (by
    unfold BitcoinTransaction.toBytes
    simp [toLE_length])]
  rw [hcs]
  simp only []
  rw [hri]
  simp only []
  rw [if_neg (by
    simp only [List.length_append, BitcoinTransaction.toBytes_length_tx]
    omega)]
  rw [hv4, hdlt, fromLE_toLE, fromLE_take_toLE]
  have hp : (256 : Nat) ^ 4 = 2 ^ 32 := by norm_num
  rw [hp, Nat.mod_eq_of_lt hver, Nat.mod_eq_of_lt hlt,
      BitcoinTransaction.toBytes_length_tx]

/-- Decoding any strict prefix of a transaction encoding yields the
insufficient-input error. -/
theorem BitcoinTransaction.trunc_tx (t : BitcoinTransaction)
    (htx : t.WF) (k : Nat) (hk : k < t.toBytes.length) :
    BitcoinTransaction.fromBytes (t.toBytes.take k) =
      .error .InsufficientBytes := by
  obtain ⟨hver, hlt, hcnt, hinps⟩ := htx
  have h4 : (toLE 4 t.version).length = 4 := toLE_length 4 _
  rw [BitcoinTransaction.toBytes_length_tx] at hk
  by_cases hk1 : k < 4
  · unfold BitcoinTransaction.fromBytes
    rw [if_pos (by
      simp only [List.length_take, BitcoinTransaction.toBytes_length_tx]
      omega)]
  · push_neg at hk1
    have hassoc : t.toBytes = toLE 4 t.version ++
        ((CompactSize.mk t.inputs.length).toBytes ++
          ((t.inputs.map TransactionInput.toBytes).flatten ++
            toLE 4 t.lock_time)) := by
      unfold BitcoinTransaction.toBytes
      simp [List.append_assoc]
    have hsplit1 : t.toBytes.take k = toLE 4 t.version ++
        (((CompactSize.mk t.inputs.length).toBytes ++
          ((t.inputs.map TransactionInput.toBytes).flatten ++
            toLE 4 t.lock_time)).take (k - 4)) := by
      rw [hassoc, List.take_append_eq_append_take, h4,
          List.take_of_length_le (by omega)]
    have hlen1 : (t.toBytes.take k).length = k := by
      rw [List.length_take, BitcoinTransaction.toBytes_length_tx]
      omega
    have hdrop4 : (t.toBytes.take k).drop 4 =
        ((CompactSize.mk t.inputs.length).toBytes ++
          ((t.inputs.map TransactionInput.toBytes).flatten ++
            toLE 4 t.lock_time)).take (k - 4) := by
      rw [hsplit1, List.drop_left' h4]
    by_cases hk2 : k - 4 < (CompactSize.mk t.inputs.length).toBytes.length
    · unfold BitcoinTransaction.fromBytes
      rw [if_neg (by omega), hdrop4,
          CompactSize.trunc_varint t.inputs.length (k - 4) _ hk2]
    · push_neg at hk2
      have hsplit2 : ((CompactSize.mk t.inputs.length).toBytes ++
            ((t.inputs.map TransactionInput.toBytes).flatten ++
              toLE 4 t.lock_time)).take (k - 4) =
          (CompactSize.mk t.inputs.length).toBytes ++
            (((t.inputs.map TransactionInput.toBytes).flatten ++
              toLE 4 t.lock_time).take
                (k - 4 - (CompactSize.mk t.inputs.length).toBytes.length)) := by
        rw [List.take_append_eq_append_take,
            List.take_of_length_le hk2]
      have hcs : CompactSize.fromBytes ((t.toBytes.take k).drop 4) =
          .ok (⟨t.inputs.length⟩,
               (CompactSize.mk t.inputs.length).toBytes.length) := by
        rw [hdrop4, hsplit2]
        exact CompactSize.roundtrip_varint t.inputs.length hcnt _
      by_cases hk3 : k - 4 - (CompactSize.mk t.inputs.length).toBytes.length <
          ((t.inputs.map TransactionInput.toBytes).flatten).length
      · have hsplit3 : ((t.inputs.map TransactionInput.toBytes).flatten ++
              toLE 4 t.lock_time).take
                (k - 4 - (CompactSize.mk t.inputs.length).toBytes.length) =
            ((t.inputs.map TransactionInput.toBytes).flatten).take
              (k - 4 - (CompactSize.mk t.inputs.length).toBytes.length) := by
          rw [List.take_append_eq_append_take,
              Nat.sub_eq_zero_of_le (le_of_lt hk3), List.take_zero,
              List.append_nil]
        have hri : readInputs t.inputs.length (t.toBytes.take k)
            (4 + (CompactSize.mk t.inputs.length).toBytes.length) =
            .error .InsufficientBytes := by
          have hb : t.toBytes.take k =
              (toLE 4 t.version ++ (CompactSize.mk t.inputs.length).toBytes) ++
                ((t.inputs.map TransactionInput.toBytes).flatten).take
                  (k - 4 - (CompactSize.mk t.inputs.length).toBytes.length) := by
            rw [hsplit1, hsplit2, hsplit3, List.append_assoc]
          have hoff : 4 + (CompactSize.mk t.inputs.length).toBytes.length =
              (toLE 4 t.version ++
                (CompactSize.mk t.inputs.length).toBytes).length := by
            simp [h4]
          rw [hb, hoff]
          exact readInputs_take_flatten t.inputs hinps _ _ hk3
        unfold BitcoinTransaction.fromBytes
        rw [if_neg (by omega), hcs]
        simp only []
        rw [hri]
      · push_neg at hk3
        have hsplit3 : ((t.inputs.map TransactionInput.toBytes).flatten ++
              toLE 4 t.lock_time).take
                (k - 4 - (CompactSize.mk t.inputs.length).toBytes.length) =
            (t.inputs.map TransactionInput.toBytes).flatten ++
              (toLE 4 t.lock_time).take
                (k - 4 - (CompactSize.mk t.inputs.length).toBytes.length -
                  ((t.inputs.map TransactionInput.toBytes).flatten).length) := by
          rw [List.take_append_eq_append_take,
              List.take_of_length_le hk3]
        have hri : readInputs t.inputs.length (t.toBytes.take k)
            (4 + (CompactSize.mk t.inputs.length).toBytes.length) =
            .ok (t.inputs,
                 4 + (CompactSize.mk t.inputs.length).toBytes.length +
                   ((t.inputs.map TransactionInput.toBytes).flatten).length) := by
          have hb : t.toBytes.take k =
              (toLE 4 t.version ++ (CompactSize.mk t.inputs.length).toBytes) ++
                (t.inputs.map TransactionInput.toBytes).flatten ++
                  (toLE 4 t.lock_time).take
                    (k - 4 - (CompactSize.mk t.inputs.length).toBytes.length -
                      ((t.inputs.map TransactionInput.toBytes).flatten).length) := by
            rw [hsplit1, hsplit2, hsplit3]
            simp [List.append_assoc]
          have hoff : 4 + (CompactSize.mk t.inputs.length).toBytes.length =
              (toLE 4 t.version ++
                (CompactSize.mk t.inputs.length).toBytes).length := by
            simp [h4]
          have := readInputs_append t.inputs hinps
              (toLE 4 t.version ++ (CompactSize.mk t.inputs.length).toBytes)
              ((toLE 4 t.lock_time).take
                (k - 4 - (CompactSize.mk t.inputs.length).toBytes.length -
                  ((t.inputs.map TransactionInput.toBytes).flatten).length))
          rw [← hb] at this
          rw [hoff]
          rw [this]
        unfold BitcoinTransaction.fromBytes
        rw [if_neg (by omega), hcs]
        simp only []
        rw [hri]
        simp only []
        rw [if_pos (by rw [hlen1]; omega)]

/-- On a buffer of genuine bytes (each below 256) the varint decoder can
only fail with the insufficient-input error: every possible first byte
is handled by one of the four branches. -/
theorem CompactSize.error_kind_varint (bytes : List Nat)
    (hvalid : ∀ b ∈ bytes, b < 256) (e : BitcoinError)
    (h : CompactSize.fromBytes bytes = .error e) : e = .InsufficientBytes := by
  cases bytes with
  | nil =>
    rw [CompactSize.fromBytes] at h
    cases h
    rfl
  | cons b t =>
    have hb : b < 256 := hvalid b (by simp)
    rw [CompactSize.fromBytes] at h
    by_cases h1 : b ≤ 0xFC
    · rw [if_pos h1] at h
      cases h
    · rw [if_neg h1] at h
      by_cases h2 : b = 0xFD
      · rw [if_pos h2] at h
        by_cases hl : (b :: t).length < 3
        · rw [if_pos hl] at h; cases h; rfl
        · rw [if_neg hl] at h; cases h
      · rw [if_neg h2] at h
        by_cases h3 : b = 0xFE
        · rw [if_pos h3] at h
          by_cases hl : (b :: t).length < 5
          · rw [if_pos hl] at h; cases h; rfl
          · rw [if_neg hl] at h; cases h
        · rw [if_neg h3] at h
          by_cases h4 : b = 0xFF
          · rw [if_pos h4] at h
            by_cases hl : (b :: t).length < 9
            · rw [if_pos hl] at h; cases h; rfl
            · rw [if_neg hl] at h; cases h
          · rw [if_neg h4] at h
            exfalso
            omega

theorem OutPoint.error_kind_outpoint (bytes : List Nat) (e : BitcoinError)
    (h : OutPoint.fromBytes bytes = .error e) : e = .InsufficientBytes := by
  unfold OutPoint.fromBytes at h
  by_cases hl : bytes.length < 36
  · rw [if_pos hl] at h; cases h; rfl
  · rw [if_neg hl] at h; cases h

theorem Script.error_kind_script (bytes : List Nat)
    (hvalid : ∀ b ∈ bytes, b < 256) (e : BitcoinError)
    (h : Script.fromBytes bytes = .error e) : e = .InsufficientBytes := by
  unfold Script.fromBytes at h
  cases hcs : CompactSize.fromBytes bytes with
  | error e2 =>
    rw [hcs] at h
    simp only [] at h
    cases h
    exact CompactSize.error_kind_varint bytes hvalid e hcs
  | ok p =>
    obtain ⟨cs, used⟩ := p
    rw [hcs] at h
    simp only [] at h
    by_cases hl : bytes.length < used + cs.value
    · rw [if_pos hl] at h; cases h; rfl
    · rw [if_neg hl] at h; cases h

theorem TransactionInput.error_kind_input (bytes : List Nat)
    (hvalid : ∀ b ∈ bytes, b < 256) (e : BitcoinError)
    (h : TransactionInput.fromBytes bytes = .error e) :
    e = .InsufficientBytes := by
  unfold TransactionInput.fromBytes at h
  cases hop : OutPoint.fromBytes bytes with
  | error e2 =>
    rw [hop] at h
    simp only [] at h
    cases h
    exact OutPoint.error_kind_outpoint bytes e hop
  | ok p =>
    obtain ⟨op, used1⟩ := p
    rw [hop] at h
    simp only [] at h
    cases hsc : Script.fromBytes (bytes.drop used1) with
    | error e2 =>
      rw [hsc] at h
      simp only [] at h
      cases h
      exact Script.error_kind_script (bytes.drop used1)
        (fun b hb => hvalid b (List.mem_of_mem_drop hb)) e hsc
    | ok q =>
      obtain ⟨sc, used2⟩ := q
      rw [hsc] at h
      simp only [] at h
      by_cases hl : bytes.length < used1 + used2 + 4
      · rw [if_pos hl] at h; cases h; rfl
      · rw [if_neg hl] at h; cases h

theorem readInputs_error_kind (count : Nat) (bytes : List Nat)
    (hvalid : ∀ b ∈ bytes, b < 256) (offset : Nat) (e : BitcoinError)
    (h : readInputs count bytes offset = .error e) :
    e = .InsufficientBytes := by
  obtain ⟨off2, hti⟩ := readInputs_error_src count bytes offset e h
  exact TransactionInput.error_kind_input (bytes.drop off2)
    (fun b hb => hvalid b (List.mem_of_mem_drop hb)) e hti

/-- On a buffer of genuine bytes every transaction-decode failure is the
insufficient-input error; a buffer running out mid-loop reports the same
kind as any other short read. -/
theorem BitcoinTransaction.error_kind_tx (bytes : List Nat)
    (hvalid : ∀ b ∈ bytes, b < 256) (e : BitcoinError)
    (h : BitcoinTransaction.fromBytes bytes = .error e) :
    e = .InsufficientBytes := by
  unfold BitcoinTransaction.fromBytes at h
  by_cases hl : bytes.length < 4
  · rw [if_pos hl] at h; cases h; rfl
  · rw [if_neg hl] at h
    cases hcs : CompactSize.fromBytes (bytes.drop 4) with
    | error e2 =>
      rw [hcs] at h
      simp only [] at h
      cases h
      exact CompactSize.error_kind_varint (bytes.drop 4)
        (fun b hb => hvalid b (List.mem_of_mem_drop hb)) e hcs
    | ok p =>
      obtain ⟨cs, used1⟩ := p
      rw [hcs] at h
      simp only [] at h
      cases hri : readInputs cs.value bytes (4 + used1) with
      | error e2 =>
        rw [hri] at h
        simp only [] at h
        cases h
        exact readInputs_error_kind cs.value bytes hvalid (4 + used1) e hri
      | ok q =>
        obtain ⟨inputs, offset⟩ := q
        rw [hri] at h
        simp only [] at h
        by_cases hl2 : bytes.length < offset + 4
        · rw [if_pos hl2] at h; cases h; rfl
        · rw [if_neg hl2] at h; cases h

/-- A concrete outpoint used as a witness input: all-zero txid, vout 1
(the spec's scenario B outpoint). -/
def sampleOutPoint : OutPoint := ⟨⟨List.replicate 32 0⟩, 1⟩

/-- A concrete two-byte script used as a witness input. -/
def sampleScript : Script := ⟨[0xAA, 0xBB]⟩

/-- A concrete transaction input used as a witness input. -/
def sampleInput : TransactionInput := ⟨sampleOutPoint, sampleScript, 4294967295⟩

/-- A concrete one-input transaction used as a witness input. -/
def sampleTx : BitcoinTransaction := ⟨1, [sampleInput], 0⟩

theorem sampleOutPoint_wf : sampleOutPoint.WF := by
  refine ⟨?_, ?_⟩
  · show (List.replicate 32 (0 : Nat)).length = 32
    decide
  · show (1 : Nat) < 2 ^ 32
    decide

theorem sampleScript_wf : sampleScript.WF := by
  show ([0xAA, 0xBB] : List Nat).length < 2 ^ 64
  decide

theorem sampleInput_wf : sampleInput.WF :=
  ⟨sampleOutPoint_wf, sampleScript_wf, by decide⟩

theorem sampleTx_wf : sampleTx.WF := by
  refine ⟨by decide, by decide, by decide, ?_⟩
  intro i hi
  simp only [sampleTx, List.mem_singleton] at hi
  subst hi
  exact sampleInput_wf

/-- C1: for every representable value of each entity (CompactSize,
OutPoint, Script, TransactionInput, BitcoinTransaction), decoding the
value's encoding succeeds and returns exactly the value together with
the encoding's length. -/
theorem claim_roundtrip_all_entities :
    (∀ v : Nat, v < 2 ^ 64 →
      CompactSize.fromBytes (CompactSize.mk v).toBytes =
        .ok (CompactSize.mk v, (CompactSize.mk v).toBytes.length)) ∧
    (∀ o : OutPoint, o.WF →
      OutPoint.fromBytes o.toBytes = .ok (o, o.toBytes.length)) ∧
    (∀ s : Script, s.WF →
      Script.fromBytes s.toBytes = .ok (s, s.toBytes.length)) ∧
    (∀ i : TransactionInput, i.WF →
      TransactionInput.fromBytes i.toBytes = .ok (i, i.toBytes.length)) ∧
    (∀ t : BitcoinTransaction, t.WF →
      BitcoinTransaction.fromBytes t.toBytes = .ok (t, t.toBytes.length)) := by
  refine ⟨?_, ?_, ?_, ?_, ?_⟩
  · intro v hv
    have h := CompactSize.roundtrip_varint v hv []
    rwa [List.append_nil] at h
  · intro o ho
    rw [OutPoint.toBytes_length_outpoint o ho]
    have h := OutPoint.roundtrip_outpoint o ho []
    rwa [List.append_nil] at h
  · intro s hs
    have h := Script.roundtrip_script s hs []
    rwa [List.append_nil] at h
  · intro i hi
    have h := TransactionInput.roundtrip_input i hi []
    rwa [List.append_nil] at h
  · intro t htx
    have h := BitcoinTransaction.roundtrip_tx t htx []
    rwa [List.append_nil] at h

/-- Witness for C1 at concrete inputs: the hypotheses hold and the
round trips evaluate as stated. -/
theorem claim_roundtrip_all_entities_witness :
    ((300 : Nat) < 2 ^ 64 ∧ sampleOutPoint.WF ∧ sampleScript.WF ∧
      sampleInput.WF ∧ sampleTx.WF) ∧
    CompactSize.fromBytes (CompactSize.mk 300).toBytes =
      .ok (CompactSize.mk 300, (CompactSize.mk 300).toBytes.length) ∧
    OutPoint.fromBytes sampleOutPoint.toBytes =
      .ok (sampleOutPoint, sampleOutPoint.toBytes.length) ∧
    Script.fromBytes sampleScript.toBytes =
      .ok (sampleScript, sampleScript.toBytes.length) ∧
    TransactionInput.fromBytes sampleInput.toBytes =
      .ok (sampleInput, sampleInput.toBytes.length) ∧
    BitcoinTransaction.fromBytes sampleTx.toBytes =
      .ok (sampleTx, sampleTx.toBytes.length) :=
  ⟨⟨by decide, sampleOutPoint_wf, sampleScript_wf, sampleInput_wf, sampleTx_wf⟩,
   claim_roundtrip_all_entities.1 300 (by decide),
   claim_roundtrip_all_entities.2.1 sampleOutPoint sampleOutPoint_wf,
   claim_roundtrip_all_entities.2.2.1 sampleScript sampleScript_wf,
   claim_roundtrip_all_entities.2.2.2.1 sampleInput sampleInput_wf,
   claim_roundtrip_all_entities.2.2.2.2 sampleTx sampleTx_wf⟩

/-- C10: decoders consume only a prefix of the buffer, so appending
arbitrary trailing bytes to a valid encoding leaves the decoded value
and the consumed count unchanged, for every entity. -/
theorem claim_decode_ignores_trailing :
    (∀ (v : Nat) (extra : List Nat), v < 2 ^ 64 →
      CompactSize.fromBytes ((CompactSize.mk v).toBytes ++ extra) =
        .ok (CompactSize.mk v, (CompactSize.mk v).toBytes.length)) ∧
    (∀ (o : OutPoint) (extra : List Nat), o.WF →
      OutPoint.fromBytes (o.toBytes ++ extra) = .ok (o, o.toBytes.length)) ∧
    (∀ (s : Script) (extra : List Nat), s.WF →
      Script.fromBytes (s.toBytes ++ extra) = .ok (s, s.toBytes.length)) ∧
    (∀ (i : TransactionInput) (extra : List Nat), i.WF →
      TransactionInput.fromBytes (i.toBytes ++ extra) =
        .ok (i, i.toBytes.length)) ∧
    (∀ (t : BitcoinTransaction) (extra : List Nat), t.WF →
      BitcoinTransaction.fromBytes (t.toBytes ++ extra) =
        .ok (t, t.toBytes.length)) := by
  refine ⟨?_, ?_, ?_, ?_, ?_⟩
  · intro v extra hv
    exact CompactSize.roundtrip_varint v hv extra
  · intro o extra ho
    rw [OutPoint.toBytes_length_outpoint o ho]
    exact OutPoint.roundtrip_outpoint o ho extra
  · intro s extra hs
    exact Script.roundtrip_script s hs extra
  · intro i extra hi
    exact TransactionInput.roundtrip_input i hi extra
  · intro t extra htx
    exact BitcoinTransaction.roundtrip_tx t htx extra

/-- Witness for C10 at concrete inputs with one trailing byte. -/
theorem claim_decode_ignores_trailing_witness :
    ((300 : Nat) < 2 ^ 64 ∧ sampleOutPoint.WF ∧ sampleScript.WF ∧
      sampleInput.WF ∧ sampleTx.WF) ∧
    CompactSize.fromBytes ((CompactSize.mk 300).toBytes ++ [0xAB]) =
      .ok (CompactSize.mk 300, (CompactSize.mk 300).toBytes.length) ∧
    OutPoint.fromBytes (sampleOutPoint.toBytes ++ [0xAB]) =
      .ok (sampleOutPoint, sampleOutPoint.toBytes.length) ∧
    Script.fromBytes (sampleScript.toBytes ++ [0xAB]) =
      .ok (sampleScript, sampleScript.toBytes.length) ∧
    TransactionInput.fromBytes (sampleInput.toBytes ++ [0xAB]) =
      .ok (sampleInput, sampleInput.toBytes.length) ∧
    BitcoinTransaction.fromBytes (sampleTx.toBytes ++ [0xAB]) =
      .ok (sampleTx, sampleTx.toBytes.length) :=
  ⟨⟨by decide, sampleOutPoint_wf, sampleScript_wf, sampleInput_wf, sampleTx_wf⟩,
   claim_decode_ignores_trailing.1 300 [0xAB] (by decide),
   claim_decode_ignores_trailing.2.1 sampleOutPoint [0xAB] sampleOutPoint_wf,
   claim_decode_ignores_trailing.2.2.1 sampleScript [0xAB] sampleScript_wf,
   claim_decode_ignores_trailing.2.2.2.1 sampleInput [0xAB] sampleInput_wf,
   claim_decode_ignores_trailing.2.2.2.2 sampleTx [0xAB] sampleTx_wf⟩

/-- C4: truncating any entity's encoding to any length strictly below
the full encoding makes that entity's decoder fail with the
insufficient-input error. -/
theorem claim_truncation_safety :
    (∀ (v k : Nat), k < (CompactSize.mk v).toBytes.length →
      CompactSize.fromBytes ((CompactSize.mk v).toBytes.take k) =
        .error .InsufficientBytes) ∧
    (∀ (o : OutPoint) (k : Nat), o.WF → k < o.toBytes.length →
      OutPoint.fromBytes (o.toBytes.take k) = .error .InsufficientBytes) ∧
    (∀ (s : Script) (k : Nat), s.WF → k < s.toBytes.length →
      Script.fromBytes (s.toBytes.take k) = .error .InsufficientBytes) ∧
    (∀ (i : TransactionInput) (k : Nat), i.WF → k < i.toBytes.length →
      TransactionInput.fromBytes (i.toBytes.take k) =
        .error .InsufficientBytes) ∧
    (∀ (t : BitcoinTransaction) (k : Nat), t.WF → k < t.toBytes.length →
      BitcoinTransaction.fromBytes (t.toBytes.take k) =
        .error .InsufficientBytes) := by
  refine ⟨?_, ?_, ?_, ?_, ?_⟩
  · intro v k hk
    have h := CompactSize.trunc_varint v k [] hk
    rwa [List.append_nil] at h
  · intro o k ho hk
    apply OutPoint.fromBytes_short
    rw [List.length_take, OutPoint.toBytes_length_outpoint o ho] at *
    omega
  · intro s k hs hk
    have h := Script.trunc_script s hs k [] hk
    rwa [List.append_nil] at h
  · intro i k hi hk
    have h := TransactionInput.trunc_input i hi k [] hk
    rwa [List.append_nil] at h
  · intro t k htx hk
    exact BitcoinTransaction.trunc_tx t htx k hk

/-- Witness for C4 at concrete inputs, including the spec's scenario B:
the 35-byte prefix of the all-zero-txid outpoint encoding fails. -/
theorem claim_truncation_safety_witness :
    ((2 : Nat) < (CompactSize.mk 300).toBytes.length ∧
      sampleOutPoint.WF ∧ (35 : Nat) < sampleOutPoint.toBytes.length ∧
      sampleScript.WF ∧ (1 : Nat) < sampleScript.toBytes.length ∧
      sampleInput.WF ∧ (40 : Nat) < sampleInput.toBytes.length ∧
      sampleTx.WF ∧ (12 : Nat) < sampleTx.toBytes.length) ∧
    CompactSize.fromBytes ((CompactSize.mk 300).toBytes.take 2) =
      .error .InsufficientBytes ∧
    OutPoint.fromBytes (sampleOutPoint.toBytes.take 35) =
      .error .InsufficientBytes ∧
    Script.fromBytes (sampleScript.toBytes.take 1) =
      .error .InsufficientBytes ∧
    TransactionInput.fromBytes (sampleInput.toBytes.take 40) =
      .error .InsufficientBytes ∧
    BitcoinTransaction.fromBytes (sampleTx.toBytes.take 12) =
      .error .InsufficientBytes :=
  ⟨⟨by decide, sampleOutPoint_wf, by decide, sampleScript_wf, by decide,
    sampleInput_wf, by decide, sampleTx_wf, by decide⟩,
   claim_truncation_safety.1 300 2 (by decide),
   claim_truncation_safety.2.1 sampleOutPoint 35 sampleOutPoint_wf (by decide),
   claim_truncation_safety.2.2.1 sampleScript 1 sampleScript_wf (by decide),
   claim_truncation_safety.2.2.2.1 sampleInput 40 sampleInput_wf (by decide),
   claim_truncation_safety.2.2.2.2 sampleTx 12 sampleTx_wf (by decide)⟩

/-- C2: the varint decode rule: a first byte up to 0xFC is the value
itself with one byte consumed; markers 0xFD, 0xFE, 0xFF require buffers
of 3, 5, 9 bytes (failing with the insufficient-input error otherwise)
and read the following 2, 4, 8 bytes little-endian with consumed 3, 5,
9; the empty buffer fails with the insufficient-input error. -/
theorem claim_compactsize_decode_rule :
    (CompactSize.fromBytes [] = .error .InsufficientBytes) ∧
    (∀ (b : Nat) (rest : List Nat), b ≤ 0xFC →
      CompactSize.fromBytes (b :: rest) = .ok (⟨b⟩, 1)) ∧
    (∀ rest : List Nat, (0xFD :: rest).length < 3 →
      CompactSize.fromBytes (0xFD :: rest) = .error .InsufficientBytes) ∧
    (∀ (b1 b2 : Nat) (rest : List Nat),
      CompactSize.fromBytes (0xFD :: b1 :: b2 :: rest) =
        .ok (⟨b1 + 256 * b2⟩, 3)) ∧
    (∀ rest : List Nat, (0xFE :: rest).length < 5 →
      CompactSize.fromBytes (0xFE :: rest) = .error .InsufficientBytes) ∧
    (∀ (b1 b2 b3 b4 : Nat) (rest : List Nat),
      CompactSize.fromBytes (0xFE :: b1 :: b2 :: b3 :: b4 :: rest) =
        .ok (⟨b1 + 256 * b2 + 65536 * b3 + 16777216 * b4⟩, 5)) ∧
    (∀ rest : List Nat, (0xFF :: rest).length < 9 →
      CompactSize.fromBytes (0xFF :: rest) = .error .InsufficientBytes) ∧
    (∀ (b1 b2 b3 b4 b5 b6 b7 b8 : Nat) (rest : List Nat),
      CompactSize.fromBytes
          (0xFF :: b1 :: b2 :: b3 :: b4 :: b5 :: b6 :: b7 :: b8 :: rest) =
        .ok (⟨b1 + 256 * b2 + 65536 * b3 + 16777216 * b4 +
              4294967296 * b5 + 1099511627776 * b6 +
              281474976710656 * b7 + 72057594037927936 * b8⟩, 9)) := by
  refine ⟨rfl, ?_, ?_, ?_, ?_, ?_, ?_, ?_⟩
  · intro b rest hb
    simp [CompactSize.fromBytes, hb]
  · intro rest h
    simp only [List.length_cons] at h
    simp [CompactSize.fromBytes]
    omega
  · intro b1 b2 rest
    simp [CompactSize.fromBytes, fromLE]
  · intro rest h
    simp only [List.length_cons] at h
    simp [CompactSize.fromBytes]
    omega
  · intro b1 b2 b3 b4 rest
    simp [CompactSize.fromBytes, fromLE]
    try rw [if_neg (by omega)]
    try (simp only [Except.ok.injEq, Prod.mk.injEq, CompactSize.mk.injEq,
      and_true]; ring)
  · intro rest h
    simp only [List.length_cons] at h
    simp [CompactSize.fromBytes]
    omega
  · intro b1 b2 b3 b4 b5 b6 b7 b8 rest
    simp [CompactSize.fromBytes, fromLE]
    try rw [if_neg (by omega)]
    try (simp only [Except.ok.injEq, Prod.mk.injEq, CompactSize.mk.injEq,
      and_true]; ring)

/-- Witness for C2 at concrete inputs. -/
theorem claim_compactsize_decode_rule_witness :
    ((7 : Nat) ≤ 0xFC ∧ ([0xFD, 0x01] : List Nat).length < 3 ∧
      ([0xFE] : List Nat).length < 5 ∧ ([0xFF] : List Nat).length < 9) ∧
    CompactSize.fromBytes [7, 9] = .ok (⟨7⟩, 1) ∧
    CompactSize.fromBytes [0xFD, 0x01] = .error .InsufficientBytes ∧
    CompactSize.fromBytes [0xFD, 0x2C, 0x01] = .ok (⟨0x2C + 256 * 0x01⟩, 3) ∧
    CompactSize.fromBytes [0xFE] = .error .InsufficientBytes ∧
    CompactSize.fromBytes [0xFE, 0x70, 0x11, 0x01, 0x00] =
      .ok (⟨0x70 + 256 * 0x11 + 65536 * 0x01 + 16777216 * 0x00⟩, 5) ∧
    CompactSize.fromBytes [0xFF] = .error .InsufficientBytes ∧
    CompactSize.fromBytes [0xFF, 1, 0, 0, 0, 0, 0, 0, 2] =
      .ok (⟨1 + 256 * 0 + 65536 * 0 + 16777216 * 0 + 4294967296 * 0 +
            1099511627776 * 0 + 281474976710656 * 0 +
            72057594037927936 * 2⟩, 9) :=
  ⟨⟨by decide, by decide, by decide, by decide⟩,
   claim_compactsize_decode_rule.2.1 7 [9] (by decide),
   claim_compactsize_decode_rule.2.2.1 [0x01] (by decide),
   claim_compactsize_decode_rule.2.2.2.1 0x2C 0x01 [],
   claim_compactsize_decode_rule.2.2.2.2.1 [] (by decide),
   claim_compactsize_decode_rule.2.2.2.2.2.1 0x70 0x11 0x01 0x00 [],
   claim_compactsize_decode_rule.2.2.2.2.2.2.1 [] (by decide),
   claim_compactsize_decode_rule.2.2.2.2.2.2.2 1 0 0 0 0 0 0 2 []⟩

/-- C3: the encoder always selects the smallest prefix class able to
hold the value, with the expected layout in each class, and the boundary
and example values encode as expected. -/
theorem claim_compactsize_minimal_encoding :
    (∀ v : Nat, v ≤ 252 → (CompactSize.mk v).toBytes = [v]) ∧
    (∀ v : Nat, 253 ≤ v → v ≤ 65535 →
      (CompactSize.mk v).toBytes = 0xFD :: toLE 2 v) ∧
    (∀ v : Nat, 65536 ≤ v → v ≤ 4294967295 →
      (CompactSize.mk v).toBytes = 0xFE :: toLE 4 v) ∧
    (∀ v : Nat, 4294967296 ≤ v → v < 2 ^ 64 →
      (CompactSize.mk v).toBytes = 0xFF :: toLE 8 v) ∧
    (CompactSize.mk 0).toBytes = [0x00] ∧
    (CompactSize.mk 252).toBytes = [0xFC] ∧
    (CompactSize.mk 253).toBytes = [0xFD, 0xFD, 0x00] ∧
    (CompactSize.mk 65535).toBytes = [0xFD, 0xFF, 0xFF] ∧
    (CompactSize.mk 65536).toBytes = [0xFE, 0x00, 0x00, 0x01, 0x00] ∧
    (CompactSize.mk 4294967295).toBytes = [0xFE, 0xFF, 0xFF, 0xFF, 0xFF] ∧
    (CompactSize.mk 4294967296).toBytes =
      [0xFF, 0x00, 0x00, 0x00, 0x00, 0x01, 0x00, 0x00, 0x00] ∧
    (CompactSize.mk 300).toBytes = [0xFD, 0x2C, 0x01] ∧
    (CompactSize.mk 70000).toBytes = [0xFE, 0x70, 0x11, 0x01, 0x00] := by
  refine ⟨?_, ?_, ?_, ?_, by decide, by decide, by decide, by decide,
    by decide, by decide, by decide, by decide, by decide⟩
  · intro v hv
    simp [CompactSize.toBytes, hv]
  · intro v hv1 hv2
    have h1 : ¬ v ≤ 252 := by omega
    unfold CompactSize.toBytes
    simp [h1, hv2]
    rw [Nat.mod_eq_of_lt (by omega : v < 65536)]
  · intro v hv1 hv2
    have h1 : ¬ v ≤ 252 := by omega
    have h2 : ¬ v ≤ 65535 := by omega
    unfold CompactSize.toBytes
    simp [h1, h2, hv2]
    rw [Nat.mod_eq_of_lt (by omega : v < 4294967296)]
  · intro v hv1 hv2
    have h1 : ¬ v ≤ 252 := by omega
    have h2 : ¬ v ≤ 65535 := by omega
    have h3 : ¬ v ≤ 4294967295 := by omega
    have hv2lit : v < 18446744073709551616 := by
      norm_num at hv2
      omega
    unfold CompactSize.toBytes
    simp [h1, h2, h3]
    rw [Nat.mod_eq_of_lt hv2lit]

/-- Witness for C3 at concrete values in each prefix class. -/
theorem claim_compactsize_minimal_encoding_witness :
    ((40 : Nat) ≤ 252 ∧
      ((253 : Nat) ≤ 300 ∧ (300 : Nat) ≤ 65535) ∧
      ((65536 : Nat) ≤ 70000 ∧ (70000 : Nat) ≤ 4294967295) ∧
      ((4294967296 : Nat) ≤ 4294967297 ∧ (4294967297 : Nat) < 2 ^ 64)) ∧
    (CompactSize.mk 40).toBytes = [40] ∧
    (CompactSize.mk 300).toBytes = 0xFD :: toLE 2 300 ∧
    (CompactSize.mk 70000).toBytes = 0xFE :: toLE 4 70000 ∧
    (CompactSize.mk 4294967297).toBytes = 0xFF :: toLE 8 4294967297 :=
  ⟨⟨by decide, ⟨by decide, by decide⟩, ⟨by decide, by decide⟩,
    ⟨by decide, by decide⟩⟩,
   claim_compactsize_minimal_encoding.1 40 (by decide),
   claim_compactsize_minimal_encoding.2.1 300 (by decide) (by decide),
   claim_compactsize_minimal_encoding.2.2.1 70000 (by decide) (by decide),
   claim_compactsize_minimal_encoding.2.2.2.1 4294967297 (by decide)
     (by decide)⟩

/-- C6: on a non-empty buffer of genuine bytes the varint decoder never
returns the invalid-format error; every failure is insufficient
input. -/
theorem claim_varint_no_invalid_format :
    ∀ bytes : List Nat, bytes ≠ [] → (∀ b ∈ bytes, b < 256) →
      CompactSize.fromBytes bytes ≠ .error .InvalidFormat ∧
      (∀ e, CompactSize.fromBytes bytes = .error e →
        e = .InsufficientBytes) := by
  intro bytes _hne hvalid
  constructor
  · intro h
    have hkind := CompactSize.error_kind_varint bytes hvalid _ h
    cases hkind
  · intro e he
    exact CompactSize.error_kind_varint bytes hvalid e he

/-- Witness for C6 on a concrete one-byte buffer. -/
theorem claim_varint_no_invalid_format_witness :
    (([0x99] : List Nat) ≠ [] ∧ (∀ b ∈ ([0x99] : List Nat), b < 256)) ∧
    CompactSize.fromBytes [0x99] ≠ .error .InvalidFormat :=
  ⟨⟨by decide, by decide⟩,
   (claim_varint_no_invalid_format [0x99] (by decide) (by decide)).1⟩

/-- C7: the varint decoder is lenient: under each marker any value the
payload width can hold decodes successfully, even when a smaller class
could have encoded it; in particular [0xFD, 0x05, 0x00] decodes to 5
with 3 bytes consumed. -/
theorem claim_varint_lenient_decode :
    (∀ (v : Nat) (rest : List Nat), v < 2 ^ 16 →
      CompactSize.fromBytes (0xFD :: (toLE 2 v ++ rest)) = .ok (⟨v⟩, 3)) ∧
    (∀ (v : Nat) (rest : List Nat), v < 2 ^ 32 →
      CompactSize.fromBytes (0xFE :: (toLE 4 v ++ rest)) = .ok (⟨v⟩, 5)) ∧
    (∀ (v : Nat) (rest : List Nat), v < 2 ^ 64 →
      CompactSize.fromBytes (0xFF :: (toLE 8 v ++ rest)) = .ok (⟨v⟩, 9)) ∧
    CompactSize.fromBytes [0xFD, 0x05, 0x00] = .ok (⟨5⟩, 3) := by
  refine ⟨?_, ?_, ?_, by decide⟩
  · intro v rest hv
    simp [CompactSize.fromBytes, toLE_length, fromLE_take_toLE]
    rw [if_neg (by omega), fromLE_toLE]
    have h256 : (256 : Nat) ^ 2 = 2 ^ 16 := by norm_num
    simp [h256, Nat.mod_eq_of_lt hv]
    norm_num at hv
    omega
  · intro v rest hv
    simp [CompactSize.fromBytes, toLE_length, fromLE_take_toLE]
    rw [if_neg (by omega), fromLE_toLE]
    have h256 : (256 : Nat) ^ 4 = 2 ^ 32 := by norm_num
    simp [h256, Nat.mod_eq_of_lt hv]
    norm_num at hv
    omega
  · intro v rest hv
    simp [CompactSize.fromBytes, toLE_length, fromLE_take_toLE]
    rw [if_neg (by omega), fromLE_toLE]
    have h256 : (256 : Nat) ^ 8 = 2 ^ 64 := by norm_num
    simp [h256, Nat.mod_eq_of_lt hv]
    norm_num at hv
    omega

/-- Witness for C7: the non-minimal encodings of 5 under each marker all
decode to 5. -/
theorem claim_varint_lenient_decode_witness :
    ((5 : Nat) < 2 ^ 16 ∧ (5 : Nat) < 2 ^ 32 ∧ (5 : Nat) < 2 ^ 64) ∧
    CompactSize.fromBytes (0xFD :: (toLE 2 5 ++ [])) = .ok (⟨5⟩, 3) ∧
    CompactSize.fromBytes (0xFE :: (toLE 4 5 ++ [])) = .ok (⟨5⟩, 5) ∧
    CompactSize.fromBytes (0xFF :: (toLE 8 5 ++ [])) = .ok (⟨5⟩, 9) :=
  ⟨⟨by decide, by decide, by decide⟩,
   claim_varint_lenient_decode.1 5 [] (by decide),
   claim_varint_lenient_decode.2.1 5 [] (by decide),
   claim_varint_lenient_decode.2.2.1 5 [] (by decide)⟩

/-- C5 counterexample: the transaction with version 1, no inputs and
lock time 0 does encode to the bytes 01 00 00 00 | 00 | 00 00 00 00,
but that is 9 bytes, not 13 as claimed. -/
theorem claim_scenario_c_counterexample :
    (BitcoinTransaction.mk 1 [] 0).toBytes =
      [0x01, 0x00, 0x00, 0x00, 0x00, 0x00, 0x00, 0x00, 0x00] ∧
    (BitcoinTransaction.mk 1 [] 0).toBytes.length ≠ 13 := by
  decide

/-- C5 amended: the transaction with version 1, no inputs and lock time
0 encodes to exactly 01 00 00 00 | 00 | 00 00 00 00, a total of 9
bytes, and decoding that buffer returns the empty-input transaction
with 9 bytes consumed. -/
theorem claim_scenario_c_amended :
    (BitcoinTransaction.mk 1 [] 0).toBytes =
      [0x01, 0x00, 0x00, 0x00, 0x00, 0x00, 0x00, 0x00, 0x00] ∧
    (BitcoinTransaction.mk 1 [] 0).toBytes.length = 9 ∧
    BitcoinTransaction.fromBytes
        [0x01, 0x00, 0x00, 0x00, 0x00, 0x00, 0x00, 0x00, 0x00] =
      .ok (BitcoinTransaction.mk 1 [] 0, 9) := by
  decide

/-- C9: on the nine-byte buffer of 0xFF the decoded script length
prefix is 2^64 - 1; the exact-arithmetic reading of the bounds check
rejects the buffer, but with 64-bit usize semantics the sum `used + len`
wraps to 8 below `used = 9`, the wrapped bound passes the length check
and the slice `bytes[9..8]` panics, modelled as `none`. -/
theorem claim_script_usize_overflow_panic :
    Script.fromBytes (List.replicate 9 0xFF) = .error .InsufficientBytes ∧
    Script.fromBytesUsize (List.replicate 9 0xFF) = none := by
  decide

/-- C8: the transaction decoder decodes exactly the varint-count many
inputs (the input list length of a successful decode equals the decoded
count), a failing decode loop makes the transaction decode fail with
the identical error, every loop error is an error produced by an input
decode on the corresponding suffix, and on genuine bytes every
transaction-decode failure is the insufficient-input kind. -/
theorem claim_tx_decode_loop :
    (∀ (bytes : List Nat) (cs : CompactSize) (n : Nat),
      ¬ bytes.length < 4 →
      CompactSize.fromBytes (bytes.drop 4) = .ok (cs, n) →
      ∀ e : BitcoinError, readInputs cs.value bytes (4 + n) = .error e →
        BitcoinTransaction.fromBytes bytes = .error e) ∧
    (∀ (bytes : List Nat) (cs : CompactSize) (n : Nat),
      CompactSize.fromBytes (bytes.drop 4) = .ok (cs, n) →
      ∀ (tx : BitcoinTransaction) (m : Nat),
        BitcoinTransaction.fromBytes bytes = .ok (tx, m) →
        tx.inputs.length = cs.value) ∧
    (∀ (count : Nat) (bytes : List Nat) (offset : Nat) (e : BitcoinError),
      readInputs count bytes offset = .error e →
        ∃ off2, TransactionInput.fromBytes (bytes.drop off2) = .error e) ∧
    (∀ bytes : List Nat, (∀ b ∈ bytes, b < 256) →
      ∀ e : BitcoinError, BitcoinTransaction.fromBytes bytes = .error e →
        e = .InsufficientBytes) := by
  refine ⟨?_, ?_, ?_, ?_⟩
  · intro bytes cs n h4 hcs e hri
    unfold BitcoinTransaction.fromBytes
    rw [if_neg h4, hcs]
    simp only []
    rw [hri]
  · intro bytes cs n hcs tx m h
    unfold BitcoinTransaction.fromBytes at h
    by_cases h4 : bytes.length < 4
    · rw [if_pos h4] at h
      cases h
    · rw [if_neg h4, hcs] at h
      simp only [] at h
      cases hri : readInputs cs.value bytes (4 + n) with
      | error e =>
        rw [hri] at h
        simp only [] at h
        cases h
      | ok q =>
        obtain ⟨inputs, offset⟩ := q
        rw [hri] at h
        simp only [] at h
        by_cases hl2 : bytes.length < offset + 4
        · rw [if_pos hl2] at h
          cases h
        · rw [if_neg hl2] at h
          cases h
          exact readInputs_length cs.value bytes (4 + n) inputs offset hri
  · intro count bytes offset e h
    exact readInputs_error_src count bytes offset e h
  · intro bytes hvalid e h
    exact BitcoinTransaction.error_kind_tx bytes hvalid e h

/-- Witness for C8 at concrete buffers: a buffer whose single declared
input is missing propagates the loop's insufficient-input error; a
zero-input buffer decodes with input count 0; a loop error comes from an
input decode; a short buffer's failure is the insufficient-input
kind. -/
theorem claim_tx_decode_loop_witness :
    (¬ ([0, 0, 0, 0, 1] : List Nat).length < 4 ∧
      CompactSize.fromBytes (([0, 0, 0, 0, 1] : List Nat).drop 4) =
        .ok (⟨1⟩, 1) ∧
      readInputs 1 [0, 0, 0, 0, 1] (4 + 1) = .error .InsufficientBytes ∧
      CompactSize.fromBytes
          (([1, 0, 0, 0, 0, 0, 0, 0, 0] : List Nat).drop 4) = .ok (⟨0⟩, 1) ∧
      BitcoinTransaction.fromBytes [1, 0, 0, 0, 0, 0, 0, 0, 0] =
        .ok (BitcoinTransaction.mk 1 [] 0, 9) ∧
      readInputs 1 [] 0 = .error .InsufficientBytes ∧
      (∀ b ∈ ([1] : List Nat), b < 256) ∧
      BitcoinTransaction.fromBytes [1] = .error .InsufficientBytes) ∧
    BitcoinTransaction.fromBytes [0, 0, 0, 0, 1] =
      .error .InsufficientBytes ∧
    (BitcoinTransaction.mk 1 [] 0).inputs.length = CompactSize.value ⟨0⟩ ∧
    (∃ off2, TransactionInput.fromBytes (([] : List Nat).drop off2) =
      .error .InsufficientBytes) ∧
    BitcoinError.InsufficientBytes = BitcoinError.InsufficientBytes :=
  ⟨⟨by decide, by decide, by decide, by decide, by decide, by decide,
    by decide, by decide⟩,
   claim_tx_decode_loop.1 [0, 0, 0, 0, 1] ⟨1⟩ 1 (by decide) (by decide)
     .InsufficientBytes (by decide),
   claim_tx_decode_loop.2.1 [1, 0, 0, 0, 0, 0, 0, 0, 0] ⟨0⟩ 1 (by decide)
     (BitcoinTransaction.mk 1 [] 0) 9 (by decide),
   claim_tx_decode_loop.2.2.1 1 [] 0 .InsufficientBytes (by decide),
   claim_tx_decode_loop.2.2.2 [1] (by decide) .InsufficientBytes
     (by decide)⟩

end Btc
